import Mathlib

/-! # Bounded integer stack (`c-example/main.c`)

A shallow embedding of the linked-frame integer stack of `c-example/main.c`
and proofs of its contract.

Modelling choices.

* `int` is a 32-bit signed integer.  Values are carried as `Int`; the two
  arithmetic statements of the program (`s->num_frames++` and
  `s->num_frames--`) are followed by `wrap32`, the two's-complement wrap.
* A pointer `int_stack_frame*` is an `Option int_stack_frame`: `none` is `NULL`,
  `some f` owns the frame `f`.  Every frame has exactly one owner in the
  program, so the chain hanging from `top` is a value.
* `malloc` always succeeds.  `free` has no effect on the values that are still
  owned by the stack, so it does not appear in the state.
* Reading through a `NULL` pointer is a fault: `pop` returns `none` there.
-/

namespace CExample

/-! ## Machine integers -/

/-- The least value of a C `int` (32 bits). -/
def INT_MIN : Int := -2147483648

/-- The greatest value of a C `int` (32 bits). -/
def INT_MAX : Int := 2147483647

/-- Two's-complement wrap of an integer into the range of a 32-bit `int`. -/
def wrap32 (x : Int) : Int := (x + 2147483648) % 4294967296 - 2147483648

/-! ## Data model -/

/-- The struct `int_stack_frame`: a data field and the pointer to the next frame. -/
inductive int_stack_frame where
  | mk (data : Int) (next : Option int_stack_frame)
  deriving Repr

mutual
/-- Equality of frames is decidable. -/
def int_stack_frame.decEq : (f g : int_stack_frame) → Decidable (f = g)
  | .mk d n, .mk e m =>
    if h : d = e then
      match link_decEq n m with
      | isTrue hn => isTrue (by rw [h, hn])
      | isFalse hn => isFalse (fun he => hn (int_stack_frame.mk.inj he).2)
    else isFalse (fun he => h (int_stack_frame.mk.inj he).1)
/-- Equality of frame pointers is decidable. -/
def link_decEq : (p q : Option int_stack_frame) → Decidable (p = q)
  | none, none => isTrue rfl
  | some f, some g =>
    match int_stack_frame.decEq f g with
    | isTrue h => isTrue (by rw [h])
    | isFalse h => isFalse (fun he => h (Option.some.inj he))
  | none, some _ => isFalse (fun he => Option.noConfusion he)
  | some _, none => isFalse (fun he => Option.noConfusion he)
end

instance : DecidableEq int_stack_frame := int_stack_frame.decEq

/-- Field `data` of a frame. -/
def int_stack_frame.data : int_stack_frame → Int
  | .mk d _ => d

/-- Field `next` of a frame. -/
def int_stack_frame.next : int_stack_frame → Option int_stack_frame
  | .mk _ n => n

/-- The function `new_int_stack_frame`: a fresh frame holding `data`, with `next = NULL`. -/
def new_int_stack_frame (data : Int) : int_stack_frame :=
  .mk data none

/-- The struct `int_stack`. -/
structure int_stack where
  top : Option int_stack_frame
  num_frames : Int
  capacity : Int
  deriving Repr, DecidableEq

/-- The function `new_int_stack`. -/
def new_int_stack (capacity : Int) : int_stack :=
  { capacity := capacity, num_frames := 0, top := none }

/-! ## Operations -/

/-- The function `push`: the returned pair is the status and the stack after the call. -/
def push (s : int_stack) (data : Int) : Int × int_stack :=
  if s.num_frames = s.capacity then
    (-1, s)
  else
    let sf := new_int_stack_frame data
    -- sf->next = s->top
    let sf := int_stack_frame.mk sf.data s.top
    -- s->top = sf
    let s := { s with top := some sf }
    -- s->num_frames++
    let s := { s with num_frames := wrap32 (s.num_frames + 1) }
    (0, s)

/-- The function `pop`: `buf` is the content of the output buffer before the call; the
result is the status, the stack and the buffer content after the call, or `none` when the
call reads through a `NULL` top pointer. -/
def pop (s : int_stack) (buf : Int) : Option (Int × int_stack × Int) :=
  if s.num_frames = 0 then
    some (-1, s, buf)
  else
    match s.top with
    | none => none
    | some popped =>
      -- *buf = popped->data
      let buf := popped.data
      -- s->top = s->top->next
      let s := { s with top := popped.next }
      -- s->num_frames--
      let s := { s with num_frames := wrap32 (s.num_frames - 1) }
      -- popped->next = NULL; free(popped->next); free(popped): the popped frame is
      -- cleared and released, the frames still owned by the stack are not touched
      some (0, s, buf)

/-- The `assert` of the driver: the run stops (`none`) when the condition is false. -/
def assert (c : Bool) : Option Unit :=
  if c then some () else none

/-- Sequencing of the driver: the rest of the program `k` runs on the result of `x`, unless
`x` stopped the run. -/
@[noinline]
def and_then {α β : Type} (x : Option α) (k : α → Option β) : Option β :=
  match x with
  | none => none
  | some a => k a

/-- The function `main`; `buf0` is the content of the freshly allocated output buffer.
The result is the exit status, or `none` when an assertion fails or a call faults. -/
def main (buf0 : Int) : Option Int :=
  let s1 := new_int_stack 3
  let r := push s1 5
  and_then (assert (r.1 == 0)) fun _ =>
  let r := push r.2 6
  and_then (assert (r.1 == 0)) fun _ =>
  let r := push r.2 7
  and_then (assert (r.1 == 0)) fun _ =>
  let r := push r.2 8
  and_then (assert (r.1 != 0)) fun _ =>
  let buf := buf0
  and_then (pop r.2 buf) fun r =>
  and_then (assert (r.1 == 0)) fun _ =>
  and_then (assert (r.2.2 == 7)) fun _ =>
  and_then (pop r.2.1 r.2.2) fun r =>
  and_then (assert (r.1 == 0)) fun _ =>
  and_then (assert (r.2.2 == 6)) fun _ =>
  and_then (pop r.2.1 r.2.2) fun r =>
  and_then (assert (r.1 == 0)) fun _ =>
  and_then (assert (r.2.2 == 5)) fun _ =>
  and_then (pop r.2.1 r.2.2) fun r =>
  and_then (assert (r.1 != 0)) fun _ =>
  and_then (assert (r.2.2 == 5)) fun _ =>
  some 0

/-! ## Call sequences -/

/-- One call on a stack: `push` with its argument, or `pop`. -/
inductive op where
  | push (data : Int)
  | pop
  deriving Repr, DecidableEq

/-- Performs one call; the result is the status, the stack and the output buffer after it. -/
def step (s : int_stack) (buf : Int) : op → Option (Int × int_stack × Int)
  | .push data => some ((push s data).1, (push s data).2, buf)
  | .pop => pop s buf

/-- Performs the calls of a list in order.  The result lists, call by call, the status
returned, the stack after the call and the output buffer after the call. -/
def run (s : int_stack) (buf : Int) : List op → Option (List (Int × int_stack × Int))
  | [] => some []
  | o :: os =>
    match step s buf o with
    | none => none
    | some r =>
      match run r.2.1 r.2.2 os with
      | none => none
      | some tr => some (r :: tr)

/-- The stack after the last call of a trace (`s` when no call was made). -/
def last_stack (s : int_stack) (tr : List (Int × int_stack × Int)) : int_stack :=
  match tr.getLast? with
  | none => s
  | some r => r.2.1

/-- The output buffer after the last call of a trace (`buf` when no call was made). -/
def last_buf (buf : Int) (tr : List (Int × int_stack × Int)) : Int :=
  match tr.getLast? with
  | none => buf
  | some r => r.2.2

/-- The chain of frames whose data, from the top down, are `vs`, standing on `below`. -/
def frames_of (vs : List Int) (below : Option int_stack_frame) : Option int_stack_frame :=
  match vs with
  | [] => below
  | v :: vs => some (.mk v (frames_of vs below))

mutual
/-- The number of frames on the chain that starts with the frame `f`, itself included. -/
def count_from_frame : int_stack_frame → Nat
  | .mk _ next => count_frames next + 1
/-- The number of frames reachable from a pointer by following `next` links. -/
def count_frames : Option int_stack_frame → Nat
  | none => 0
  | some f => count_from_frame f
end

/-- The pointer reached from `p` by following `n` links `next`; `none` when the walk would
read through a `NULL` pointer before its end. -/
def link_after : Nat → Option int_stack_frame → Option (Option int_stack_frame)
  | 0, p => some p
  | _ + 1, none => none
  | n + 1, some f => link_after n f.next

/-- The state of a stack made with a capacity in `0 .. INT_MAX` and used through `push`
and `pop` only: the counter is within `0 .. capacity` and counts the linked frames. -/
def well_formed (s : int_stack) : Prop :=
  0 ≤ s.num_frames ∧ s.num_frames ≤ s.capacity ∧ s.capacity ≤ INT_MAX ∧
    (count_frames s.top : Int) = s.num_frames

instance (s : int_stack) : Decidable (well_formed s) := by
  unfold well_formed
  infer_instance

/-- A stack that the calls `push` and `pop` can produce from `new_int_stack c`. -/
inductive Reachable (c : Int) : int_stack → Prop
  | init : Reachable c (new_int_stack c)
  | push (s : int_stack) (data : Int) : Reachable c s → Reachable c (push s data).2
  | pop (s : int_stack) (buf : Int) (r : Int × int_stack × Int) :
      Reachable c s → pop s buf = some r → Reachable c r.2.1

/-! ## Basic facts about the operations -/

theorem wrap32_id (x : Int) (h1 : INT_MIN ≤ x) (h2 : x ≤ INT_MAX) : wrap32 x = x := by
  unfold INT_MIN at h1
  unfold INT_MAX at h2
  unfold wrap32
  omega

theorem push_full (s : int_stack) (v : Int) (h : s.num_frames = s.capacity) :
    push s v = (-1, s) := by
  simp [push, h]

theorem push_not_full (s : int_stack) (v : Int) (h : s.num_frames ≠ s.capacity) :
    push s v = (0, { top := some (.mk v s.top), num_frames := wrap32 (s.num_frames + 1),
                     capacity := s.capacity }) := by
  simp [push, h, new_int_stack_frame, int_stack_frame.data]

theorem pop_empty (s : int_stack) (b : Int) (h : s.num_frames = 0) :
    pop s b = some (-1, s, b) := by
  simp [pop, h]

theorem pop_not_empty (s : int_stack) (b : Int) (f : int_stack_frame)
    (h : s.num_frames ≠ 0) (ht : s.top = some f) :
    pop s b = some (0, { top := f.next, num_frames := wrap32 (s.num_frames - 1),
                         capacity := s.capacity }, f.data) := by
  simp [pop, h, ht]

/-! ## Facts about call sequences -/

theorem last_stack_nil (s : int_stack) : last_stack s [] = s := rfl

theorem last_buf_nil (b : Int) : last_buf b [] = b := rfl

theorem last_stack_cons (s : int_stack) (r : Int × int_stack × Int)
    (tr : List (Int × int_stack × Int)) :
    last_stack s (r :: tr) = last_stack r.2.1 tr := by
  cases tr with
  | nil => simp [last_stack]
  | cons e es =>
    simp only [last_stack, List.getLast?_cons_cons]
    rw [List.getLast?_eq_getLast _ (List.cons_ne_nil e es)]

theorem last_buf_cons (b : Int) (r : Int × int_stack × Int)
    (tr : List (Int × int_stack × Int)) :
    last_buf b (r :: tr) = last_buf r.2.2 tr := by
  cases tr with
  | nil => simp [last_buf]
  | cons e es =>
    simp only [last_buf, List.getLast?_cons_cons]
    rw [List.getLast?_eq_getLast _ (List.cons_ne_nil e es)]

theorem last_stack_append (s : int_stack) (tr1 tr2 : List (Int × int_stack × Int)) :
    last_stack s (tr1 ++ tr2) = last_stack (last_stack s tr1) tr2 := by
  induction tr1 generalizing s with
  | nil => rfl
  | cons r tr ih => simp only [List.cons_append, last_stack_cons, ih]

theorem last_buf_append (b : Int) (tr1 tr2 : List (Int × int_stack × Int)) :
    last_buf b (tr1 ++ tr2) = last_buf (last_buf b tr1) tr2 := by
  induction tr1 generalizing b with
  | nil => rfl
  | cons r tr ih => simp only [List.cons_append, last_buf_cons, ih]

theorem run_cons (s : int_stack) (b : Int) (o : op) (os : List op)
    (r : Int × int_stack × Int) (tr : List (Int × int_stack × Int))
    (h1 : step s b o = some r) (h2 : run r.2.1 r.2.2 os = some tr) :
    run s b (o :: os) = some (r :: tr) := by
  simp [run, h1, h2]

theorem run_append (xs ys : List op) :
    ∀ (s : int_stack) (b : Int) (tr1 tr2 : List (Int × int_stack × Int)),
      run s b xs = some tr1 → run (last_stack s tr1) (last_buf b tr1) ys = some tr2 →
      run s b (xs ++ ys) = some (tr1 ++ tr2) := by
  induction xs with
  | nil =>
    intro s b tr1 tr2 h1 h2
    simp only [run, Option.some.injEq] at h1
    subst h1
    simpa using h2
  | cons o os ih =>
    intro s b tr1 tr2 h1 h2
    simp only [run] at h1
    cases hs : step s b o with
    | none => simp [hs] at h1
    | some r =>
      simp only [hs] at h1
      cases hr : run r.2.1 r.2.2 os with
      | none => simp [hr] at h1
      | some tr =>
        simp only [hr, Option.some.injEq] at h1
        subst h1
        rw [last_stack_cons, last_buf_cons] at h2
        have h3 := ih r.2.1 r.2.2 tr tr2 hr h2
        simp [run, hs, h3]

theorem frames_of_append (xs ys : List Int) (below : Option int_stack_frame) :
    frames_of (xs ++ ys) below = frames_of xs (frames_of ys below) := by
  induction xs with
  | nil => rfl
  | cons x xs ih => simp [frames_of, ih]

/-- Consecutive pushes that stay clear of the capacity and of the `int` range all
succeed and stack their values on the old chain. -/
theorem run_pushes (vs : List Int) :
    ∀ (s : int_stack) (b : Int), INT_MIN ≤ s.num_frames →
      s.num_frames + vs.length ≤ INT_MAX →
      (s.num_frames + vs.length ≤ s.capacity ∨ s.capacity < s.num_frames) →
      ∃ tr, run s b (vs.map op.push) = some tr ∧ tr.length = vs.length ∧
        tr.map (fun r => r.1) = List.replicate vs.length 0 ∧
        last_stack s tr = { top := frames_of vs.reverse s.top,
                            num_frames := s.num_frames + vs.length,
                            capacity := s.capacity } ∧
        last_buf b tr = b := by
  induction vs with
  | nil =>
    intro s b _ _ _
    exact ⟨[], rfl, rfl, rfl, by simp [last_stack, frames_of], rfl⟩
  | cons v vs ih =>
    intro s b hmin hmax hcap
    simp only [List.length_cons, Nat.cast_add, Nat.cast_one] at hmax hcap
    have hne : s.num_frames ≠ s.capacity := by omega
    have hw : wrap32 (s.num_frames + 1) = s.num_frames + 1 :=
      wrap32_id _ (by omega) (by omega)
    have hp := push_not_full s v hne
    rw [hw] at hp
    obtain ⟨tr, h1, h2, h3, h4, h5⟩ :=
      ih { top := some (.mk v s.top), num_frames := s.num_frames + 1, capacity := s.capacity } b
        (by simp only; omega) (by simp only; omega) (by simp only; omega)
    refine ⟨(0, { top := some (.mk v s.top), num_frames := s.num_frames + 1,
                  capacity := s.capacity }, b) :: tr, ?_, ?_, ?_, ?_, ?_⟩
    · exact run_cons s b (op.push v) _ _ tr (by simp [step, hp]) h1
    · simp [h2]
    · simp [h3, List.replicate_succ]
    · rw [last_stack_cons, h4]
      simp only [List.reverse_cons, frames_of_append, frames_of, List.length_cons,
        Nat.cast_add, Nat.cast_one, int_stack.mk.injEq, true_and, and_true]
      omega
    · rw [last_buf_cons, h5]

/-- Consecutive pops on a chain of known frames all succeed and yield the data of the
frames from the top down. -/
theorem run_pops (ws : List Int) :
    ∀ (s : int_stack) (b : Int) (below : Option int_stack_frame),
      s.top = frames_of ws below → (ws.length : Int) ≤ s.num_frames →
      s.num_frames ≤ INT_MAX →
      ∃ tr, run s b (List.replicate ws.length op.pop) = some tr ∧
        tr.map (fun r => (r.1, r.2.2)) = ws.map (fun w => (0, w)) ∧
        last_stack s tr = { top := below, num_frames := s.num_frames - ws.length,
                            capacity := s.capacity } := by
  induction ws with
  | nil =>
    intro s b below ht _ _
    refine ⟨[], rfl, rfl, ?_⟩
    simp only [frames_of] at ht
    simp [last_stack, ← ht]
  | cons w ws ih =>
    intro s b below ht hlen hmax
    simp only [List.length_cons, Nat.cast_add, Nat.cast_one] at hlen
    simp only [frames_of] at ht
    have hne : s.num_frames ≠ 0 := by omega
    have hw : wrap32 (s.num_frames - 1) = s.num_frames - 1 :=
      wrap32_id _ (by unfold INT_MIN; omega) (by omega)
    have hp := pop_not_empty s b _ hne ht
    rw [hw] at hp
    simp only [int_stack_frame.next, int_stack_frame.data] at hp
    obtain ⟨tr, h1, h2, h3⟩ :=
      ih { top := frames_of ws below, num_frames := s.num_frames - 1,
           capacity := s.capacity } w below rfl (by simp only; omega) (by simp only; omega)
    refine ⟨(0, { top := frames_of ws below, num_frames := s.num_frames - 1,
                  capacity := s.capacity }, w) :: tr, ?_, ?_, ?_⟩
    · exact run_cons s b op.pop _ _ tr (by simp [step, hp]) h1
    · simp [h2]
    · rw [last_stack_cons, h3]
      simp only [List.length_cons, Nat.cast_add, Nat.cast_one, int_stack.mk.injEq, true_and,
        and_true]
      omega

/-! ## The invariant of reachable stacks -/

theorem count_frames_some (d : Int) (n : Option int_stack_frame) :
    count_frames (some (.mk d n)) = count_frames n + 1 := by
  simp [count_frames, count_from_frame]

theorem well_formed_new (c : Int) (hc : 0 ≤ c) (hmax : c ≤ INT_MAX) :
    well_formed (new_int_stack c) := by
  simp [well_formed, new_int_stack, count_frames, hc, hmax]

theorem well_formed_push (s : int_stack) (v : Int) (h : well_formed s) :
    well_formed (push s v).2 := by
  obtain ⟨h0, h1, h2, h3⟩ := h
  by_cases hf : s.num_frames = s.capacity
  · rw [push_full s v hf]
    exact ⟨h0, h1, h2, h3⟩
  · rw [push_not_full s v hf, wrap32_id _ (by unfold INT_MIN; omega) (by omega)]
    refine ⟨?_, ?_, h2, ?_⟩
    · simp only; omega
    · simp only; omega
    · simp only [count_frames_some, Nat.cast_add, Nat.cast_one, h3]

theorem well_formed_pop (s : int_stack) (b : Int) (h : well_formed s) :
    ∃ r, pop s b = some r ∧ well_formed r.2.1 := by
  obtain ⟨h0, h1, h2, h3⟩ := h
  by_cases he : s.num_frames = 0
  · exact ⟨_, pop_empty s b he, h0, h1, h2, h3⟩
  · cases ht : s.top with
    | none =>
      rw [ht] at h3
      simp only [count_frames, Nat.cast_zero] at h3
      omega
    | some f =>
      cases f with
      | mk d n =>
        rw [ht, count_frames_some] at h3
        simp only [Nat.cast_add, Nat.cast_one] at h3
        refine ⟨_, pop_not_empty s b _ he ht, ?_⟩
        rw [wrap32_id _ (by unfold INT_MIN; omega) (by omega)]
        refine ⟨?_, ?_, h2, ?_⟩
        · simp only; omega
        · simp only; omega
        · simp only [int_stack_frame.next]; omega

theorem well_formed_step (s : int_stack) (b : Int) (o : op) (h : well_formed s) :
    ∃ r, step s b o = some r ∧ well_formed r.2.1 := by
  cases o with
  | push v => exact ⟨_, rfl, well_formed_push s v h⟩
  | pop => exact well_formed_pop s b h

theorem well_formed_run (ops : List op) :
    ∀ (s : int_stack) (b : Int), well_formed s →
      ∃ tr, run s b ops = some tr ∧ tr.length = ops.length ∧
        ∀ r ∈ tr, well_formed r.2.1 := by
  induction ops with
  | nil =>
    intro s b _
    exact ⟨[], rfl, rfl, by simp⟩
  | cons o os ih =>
    intro s b h
    obtain ⟨r, hr, hw⟩ := well_formed_step s b o h
    obtain ⟨tr, h1, h2, h3⟩ := ih r.2.1 r.2.2 hw
    refine ⟨r :: tr, run_cons s b o os r tr hr h1, by simp [h2], ?_⟩
    intro e he
    rcases List.mem_cons.mp he with rfl | he
    · exact hw
    · exact h3 e he

theorem well_formed_of_reachable (c : Int) (s : int_stack) (hc : 0 ≤ c) (hmax : c ≤ INT_MAX)
    (h : Reachable c s) : well_formed s := by
  induction h with
  | init => exact well_formed_new c hc hmax
  | push s v _ ih => exact well_formed_push s v ih
  | pop s b r _ hp ih =>
    obtain ⟨q, hq, hw⟩ := well_formed_pop s b ih
    rw [hp] at hq
    cases hq
    exact hw

theorem main_asserts_hold (buf0 : Int) : main buf0 = some 0 := rfl

theorem push_capacity (s : int_stack) (v : Int) : (push s v).2.capacity = s.capacity := by
  by_cases hf : s.num_frames = s.capacity
  · rw [push_full s v hf]
  · rw [push_not_full s v hf]

theorem pop_capacity (s : int_stack) (b : Int) (r : Int × int_stack × Int)
    (h : pop s b = some r) : r.2.1.capacity = s.capacity := by
  by_cases he : s.num_frames = 0
  · rw [pop_empty s b he] at h
    cases h
    rfl
  · cases ht : s.top with
    | none => simp [pop, he, ht] at h
    | some f =>
      rw [pop_not_empty s b f he ht] at h
      cases h
      rfl

theorem pop_fault (s : int_stack) (b : Int) (h : pop s b = none) :
    s.num_frames ≠ 0 ∧ s.top = none := by
  by_cases he : s.num_frames = 0
  · rw [pop_empty s b he] at h
    cases h
  · cases ht : s.top with
    | none => exact ⟨he, rfl⟩
    | some f =>
      rw [pop_not_empty s b f he ht] at h
      cases h

theorem capacity_of_reachable (c : Int) (s : int_stack) (h : Reachable c s) :
    s.capacity = c := by
  induction h with
  | init => rfl
  | push s v _ ih => rw [push_capacity, ih]
  | pop s b r _ hp ih => rw [pop_capacity s b r hp, ih]

theorem top_of_well_formed (s : int_stack) (h : well_formed s) (hne : s.num_frames ≠ 0) :
    ∃ d n, s.top = some (.mk d n) ∧ (count_frames n : Int) + 1 = s.num_frames := by
  obtain ⟨_, _, _, h3⟩ := h
  cases ht : s.top with
  | none =>
    rw [ht] at h3
    simp only [count_frames, Nat.cast_zero] at h3
    omega
  | some f =>
    cases f with
    | mk d n =>
      rw [ht, count_frames_some] at h3
      simp only [Nat.cast_add, Nat.cast_one] at h3
      exact ⟨d, n, rfl, h3⟩

mutual
theorem link_after_count_from_frame :
    ∀ f : int_stack_frame, link_after (count_from_frame f) (some f) = some none
  | .mk d n => by
    simp only [count_from_frame, link_after, int_stack_frame.next]
    exact link_after_count_frames n
theorem link_after_count_frames :
    ∀ p : Option int_stack_frame, link_after (count_frames p) p = some none
  | none => rfl
  | some f => by
    simp only [count_frames]
    exact link_after_count_from_frame f
end

/-! ## The contract -/

/-- C1 (LIFO ordering): on the stack made by `new_int_stack c`, with `c` an `int` and
`k ≤ c` values `v1 .. vk` (so `0 ≤ c`), the `k` pushes all return 0 and the following `k`
pops all return 0 and write `vk, .., v1` to the output buffer, in that order. -/
theorem lifo_order (c : Int) (vs : List Int) (b : Int) (hmax : c ≤ INT_MAX)
    (hk : (vs.length : Int) ≤ c) :
    ∃ tr1 tr2,
      run (new_int_stack c) b (vs.map op.push ++ List.replicate vs.length op.pop)
        = some (tr1 ++ tr2) ∧
      tr1.map (fun r => r.1) = List.replicate vs.length 0 ∧
      tr2.map (fun r => (r.1, r.2.2)) = vs.reverse.map (fun v => (0, v)) := by
  obtain ⟨tr1, h1, _, h3, h4, _⟩ :=
    run_pushes vs (new_int_stack c) b (by simp [new_int_stack, INT_MIN])
      (by simp only [new_int_stack]; omega) (Or.inl (by simp only [new_int_stack]; omega))
  obtain ⟨tr2, g1, g2, _⟩ :=
    run_pops vs.reverse (last_stack (new_int_stack c) tr1) (last_buf b tr1)
      (new_int_stack c).top (by rw [h4]) (by rw [h4]; simp [new_int_stack])
      (by rw [h4]; simp only [new_int_stack]; omega)
  rw [List.length_reverse] at g1
  exact ⟨tr1, tr2, run_append _ _ _ _ _ _ h1 g1, h3, g2⟩

theorem lifo_order_witness :
    (3 : Int) ≤ INT_MAX ∧ (([5, 6, 7] : List Int).length : Int) ≤ 3 ∧
    ∃ tr1 tr2,
      run (new_int_stack 3) 0
          (([5, 6, 7] : List Int).map op.push
            ++ List.replicate ([5, 6, 7] : List Int).length op.pop)
        = some (tr1 ++ tr2) ∧
      tr1.map (fun r => r.1) = List.replicate ([5, 6, 7] : List Int).length 0 ∧
      tr2.map (fun r => (r.1, r.2.2))
        = ([5, 6, 7] : List Int).reverse.map (fun v => (0, v)) :=
  ⟨by decide, by decide, lifo_order 3 [5, 6, 7] 0 (by decide) (by decide)⟩

/-- C2 (capacity bound, I1/P1): for a capacity `c` with `0 ≤ c` (an `int`), every finite
sequence of `push` and `pop` calls on `new_int_stack c` runs to its end, and after every
call `0 ≤ num_frames ≤ capacity`. -/
theorem capacity_bound (c : Int) (ops : List op) (b : Int) (hc : 0 ≤ c) (hmax : c ≤ INT_MAX) :
    ∃ tr, run (new_int_stack c) b ops = some tr ∧ tr.length = ops.length ∧
      ∀ r ∈ tr, 0 ≤ r.2.1.num_frames ∧ r.2.1.num_frames ≤ r.2.1.capacity := by
  obtain ⟨tr, h1, h2, h3⟩ := well_formed_run ops (new_int_stack c) b (well_formed_new c hc hmax)
  exact ⟨tr, h1, h2, fun r hr => ⟨(h3 r hr).1, (h3 r hr).2.1⟩⟩

theorem capacity_bound_witness :
    (0 : Int) ≤ 2 ∧ (2 : Int) ≤ INT_MAX ∧
    ∃ tr, run (new_int_stack 2) 0 [op.pop, op.push 1, op.push 2, op.push 3, op.pop] = some tr ∧
      tr.length = [op.pop, op.push 1, op.push 2, op.push 3, op.pop].length ∧
      ∀ r ∈ tr, 0 ≤ r.2.1.num_frames ∧ r.2.1.num_frames ≤ r.2.1.capacity :=
  ⟨by decide, by decide, capacity_bound 2 _ 0 (by decide) (by decide)⟩

/-- C3 (push at capacity fails cleanly): on every stack with `num_frames = capacity`,
`push` returns the status -1 (not zero) and the stack after the call is the stack before
it: same `top` chain, same `num_frames`, same `capacity`. -/
theorem push_at_capacity (s : int_stack) (v : Int) (h : s.num_frames = s.capacity) :
    (push s v).1 = -1 ∧ (push s v).1 ≠ 0 ∧ (push s v).2 = s := by
  rw [push_full s v h]
  exact ⟨rfl, by simp, rfl⟩

theorem push_at_capacity_witness :
    (⟨frames_of [7, 6, 5] none, 3, 3⟩ : int_stack).num_frames
      = (⟨frames_of [7, 6, 5] none, 3, 3⟩ : int_stack).capacity ∧
    (push ⟨frames_of [7, 6, 5] none, 3, 3⟩ 8).1 = -1 ∧
    (push ⟨frames_of [7, 6, 5] none, 3, 3⟩ 8).1 ≠ 0 ∧
    (push ⟨frames_of [7, 6, 5] none, 3, 3⟩ 8).2 = ⟨frames_of [7, 6, 5] none, 3, 3⟩ :=
  ⟨rfl, push_at_capacity ⟨frames_of [7, 6, 5] none, 3, 3⟩ 8 rfl⟩

/-- C4 (pop at empty fails cleanly): on every stack with `num_frames = 0`, `pop` returns the
status -1 (not zero) and the stack after the call is the stack before it. -/
theorem pop_at_empty (s : int_stack) (b : Int) (h : s.num_frames = 0) :
    ∃ r, pop s b = some r ∧ r.1 = -1 ∧ r.1 ≠ 0 ∧ r.2.1 = s := by
  exact ⟨_, pop_empty s b h, rfl, by simp, rfl⟩

theorem pop_at_empty_witness :
    (new_int_stack 3).num_frames = 0 ∧
    ∃ r, pop (new_int_stack 3) 5 = some r ∧ r.1 = -1 ∧ r.1 ≠ 0 ∧ r.2.1 = new_int_stack 3 :=
  ⟨rfl, pop_at_empty (new_int_stack 3) 5 rfl⟩

/-- C5 (round trip, P5), as stated, fails on a full stack: on the stack reached from
`new_int_stack 1` by `push 1`, the call `push 2` is refused, and the `pop` that follows
writes 1 (not 2) to the buffer and leaves `num_frames = 0` where it was 1 before the push. -/
theorem round_trip_counterexample :
    Reachable 1 (push (new_int_stack 1) 1).2 ∧
    pop (push (push (new_int_stack 1) 1).2 2).2 0
      = some (0, { top := none, num_frames := 0, capacity := 1 }, 1) ∧
    (push (new_int_stack 1) 1).2.num_frames = 1 ∧
    ¬ ∃ r, pop (push (push (new_int_stack 1) 1).2 2).2 0 = some r ∧ r.2.2 = 2 ∧
        r.2.1.num_frames = (push (new_int_stack 1) 1).2.num_frames := by
  refine ⟨Reachable.push _ 1 Reachable.init, by decide, by decide, ?_⟩
  rintro ⟨r, h, h1, _⟩
  have hp : pop (push (push (new_int_stack 1) 1).2 2).2 0
      = some (0, { top := none, num_frames := 0, capacity := 1 }, 1) := by decide
  rw [hp] at h
  cases h
  exact absurd h1 (by decide)

/-- C5 (round trip, P5), amended: on every stack reachable from `new_int_stack c`
(`0 ≤ c`, an `int`) that is not full (`num_frames ≠ capacity`), `push v` returns 0, the
`pop` made right after it returns 0 and writes `v` to the output buffer, and `num_frames`
after the pop equals `num_frames` before the push. -/
theorem push_pop_round_trip (c : Int) (s : int_stack) (v b : Int) (hc : 0 ≤ c)
    (hmax : c ≤ INT_MAX) (hr : Reachable c s) (hn : s.num_frames ≠ s.capacity) :
    (push s v).1 = 0 ∧
    ∃ r, pop (push s v).2 b = some r ∧ r.1 = 0 ∧ r.2.2 = v ∧
      r.2.1.num_frames = s.num_frames := by
  obtain ⟨h0, h1, h2, _⟩ := well_formed_of_reachable c s hc hmax hr
  rw [push_not_full s v hn, wrap32_id _ (by unfold INT_MIN; omega) (by omega)]
  refine ⟨rfl, _, pop_not_empty _ b (.mk v s.top) (by simp only; omega) rfl, rfl, rfl, ?_⟩
  simp only [add_sub_cancel_right]
  exact wrap32_id _ (by unfold INT_MIN; omega) (by omega)

theorem push_pop_round_trip_witness :
    (0 : Int) ≤ 3 ∧ (3 : Int) ≤ INT_MAX ∧ Reachable 3 (push (new_int_stack 3) 5).2 ∧
    (push (new_int_stack 3) 5).2.num_frames ≠ (push (new_int_stack 3) 5).2.capacity ∧
    (push (push (new_int_stack 3) 5).2 6).1 = 0 ∧
    ∃ r, pop (push (push (new_int_stack 3) 5).2 6).2 0 = some r ∧ r.1 = 0 ∧ r.2.2 = 6 ∧
      r.2.1.num_frames = (push (new_int_stack 3) 5).2.num_frames :=
  ⟨by decide, by decide, Reachable.push _ 5 Reachable.init, by decide,
    push_pop_round_trip 3 (push (new_int_stack 3) 5).2 6 0 (by decide) (by decide)
      (Reachable.push _ 5 Reachable.init) (by decide)⟩

/-- C7 (successful pop): on every stack of the data model (`num_frames` is a count, an
`int` with `0 ≤ num_frames`) with `num_frames ≠ 0` whose top is a frame `f`, `pop` returns 0,
writes `f.data` to the output buffer, sets `top` to `f.next`, so the rest of the chain is
unchanged, and `num_frames` is the old `num_frames` minus 1; the capacity is unchanged. -/
theorem pop_success (s : int_stack) (b : Int) (f : int_stack_frame) (h : s.num_frames ≠ 0)
    (ht : s.top = some f) (h0 : 0 ≤ s.num_frames) (hmax : s.num_frames ≤ INT_MAX) :
    pop s b = some (0, { top := f.next, num_frames := s.num_frames - 1,
                         capacity := s.capacity }, f.data) := by
  rw [pop_not_empty s b f h ht, wrap32_id _ (by unfold INT_MIN; omega) (by omega)]

theorem pop_success_witness :
    (⟨frames_of [7, 6, 5] none, 3, 3⟩ : int_stack).num_frames ≠ 0 ∧
    (⟨frames_of [7, 6, 5] none, 3, 3⟩ : int_stack).top = some (.mk 7 (frames_of [6, 5] none)) ∧
    0 ≤ (⟨frames_of [7, 6, 5] none, 3, 3⟩ : int_stack).num_frames ∧
    (⟨frames_of [7, 6, 5] none, 3, 3⟩ : int_stack).num_frames ≤ INT_MAX ∧
    pop ⟨frames_of [7, 6, 5] none, 3, 3⟩ 0
      = some (0, { top := frames_of [6, 5] none, num_frames := 3 - 1, capacity := 3 }, 7) :=
  ⟨by decide, rfl, by decide, by decide,
    pop_success ⟨frames_of [7, 6, 5] none, 3, 3⟩ 0 (.mk 7 (frames_of [6, 5] none))
      (by decide) rfl (by decide) (by decide)⟩

/-- C8 (fill and drain): on `new_int_stack n` with `n` values `v1 .. vn` (`n` an `int`),
the `n` pushes each return 0, one more push returns non-zero, the following `n` pops each
return 0 and yield `vn, .., v1` in that order, and one further pop returns non-zero. -/
theorem fill_and_drain (vs : List Int) (w b : Int) (hn : (vs.length : Int) ≤ INT_MAX) :
    ∃ tr1 e1 tr2 e2,
      run (new_int_stack vs.length) b
          (vs.map op.push ++ op.push w :: (List.replicate vs.length op.pop ++ [op.pop]))
        = some (tr1 ++ e1 :: (tr2 ++ [e2])) ∧
      tr1.map (fun r => r.1) = List.replicate vs.length 0 ∧
      e1.1 ≠ 0 ∧
      tr2.map (fun r => (r.1, r.2.2)) = vs.reverse.map (fun v => (0, v)) ∧
      e2.1 ≠ 0 := by
  obtain ⟨tr1, h1, _, h3, h4, h5⟩ :=
    run_pushes vs (new_int_stack vs.length) b (by simp [new_int_stack, INT_MIN])
      (by simp only [new_int_stack]; omega) (Or.inl (by simp [new_int_stack]))
  simp only [new_int_stack, zero_add] at h4
  have hfull : (last_stack (new_int_stack vs.length) tr1).num_frames
      = (last_stack (new_int_stack vs.length) tr1).capacity := by
    simp [new_int_stack, h4]
  obtain ⟨tr2, g1, g2, g3⟩ :=
    run_pops vs.reverse (last_stack (new_int_stack vs.length) tr1) b none
      (by simp [new_int_stack, h4]) (by simp [new_int_stack, h4])
      (by simp only [new_int_stack, h4]; omega)
  rw [List.length_reverse] at g1 g3
  have hempty : (last_stack (last_stack (new_int_stack vs.length) tr1) tr2).num_frames = 0 := by
    rw [g3]
    simp [new_int_stack, h4]
  have hlast : run (last_stack (last_stack (new_int_stack vs.length) tr1) tr2)
      (last_buf b tr2) [op.pop]
      = some [(-1, last_stack (last_stack (new_int_stack vs.length) tr1) tr2,
               last_buf b tr2)] := by
    simp [run, step, pop_empty _ _ hempty]
  have hmid := run_append _ _ _ _ _ _ g1 hlast
  have hstep : step (last_stack (new_int_stack vs.length) tr1) b (op.push w)
      = some (-1, last_stack (new_int_stack vs.length) tr1, b) := by
    simp [step, push_full _ w hfull]
  have htail := run_cons _ _ _ _ _ _ hstep hmid
  rw [← h5] at htail
  exact ⟨tr1, _, tr2, _, run_append _ _ _ _ _ _ h1 htail, h3, by simp, g2, by simp⟩

theorem fill_and_drain_witness :
    ((([5, 6, 7] : List Int).length : Nat) : Int) ≤ INT_MAX ∧
    ∃ tr1 e1 tr2 e2,
      run (new_int_stack ([5, 6, 7] : List Int).length) 0
          (([5, 6, 7] : List Int).map op.push
            ++ op.push 8 :: (List.replicate ([5, 6, 7] : List Int).length op.pop ++ [op.pop]))
        = some (tr1 ++ e1 :: (tr2 ++ [e2])) ∧
      tr1.map (fun r => r.1) = List.replicate ([5, 6, 7] : List Int).length 0 ∧
      e1.1 ≠ 0 ∧
      tr2.map (fun r => (r.1, r.2.2)) = ([5, 6, 7] : List Int).reverse.map (fun v => (0, v)) ∧
      e2.1 ≠ 0 :=
  ⟨by decide, fill_and_drain [5, 6, 7] 8 0 (by decide)⟩

/-- C9 (a failed pop leaves the output buffer untouched): on every stack with
`num_frames = 0` and for every buffer content `b`, `pop` returns a non-zero status and the
buffer still holds `b` after the call. -/
theorem failed_pop_keeps_buffer (s : int_stack) (b : Int) (h : s.num_frames = 0) :
    ∃ r, pop s b = some r ∧ r.1 ≠ 0 ∧ r.2.2 = b := by
  exact ⟨_, pop_empty s b h, by simp, rfl⟩

theorem failed_pop_keeps_buffer_witness :
    (⟨none, 0, 3⟩ : int_stack).num_frames = 0 ∧
    ∃ r, pop ⟨none, 0, 3⟩ 5 = some r ∧ r.1 ≠ 0 ∧ r.2.2 = 5 :=
  ⟨rfl, failed_pop_keeps_buffer ⟨none, 0, 3⟩ 5 rfl⟩

/-- C10 (zero capacity): on `new_int_stack 0`, in every finite sequence of `push` and `pop`
calls every call returns the failure status -1, and after every call the stack is empty
(`top` is `NULL`, `num_frames = 0`, `capacity = 0`) and the output buffer is untouched. -/
theorem zero_capacity (ops : List op) (b : Int) :
    run (new_int_stack 0) b ops
      = some (ops.map (fun _ => (-1, { top := none, num_frames := 0, capacity := 0 }, b))) := by
  induction ops with
  | nil => rfl
  | cons o os ih =>
    cases o with
    | push v =>
      exact run_cons _ _ _ _ (-1, { top := none, num_frames := 0, capacity := 0 }, b) _
        (by simp [step, push, new_int_stack]) ih
    | pop =>
      exact run_cons _ _ _ _ (-1, { top := none, num_frames := 0, capacity := 0 }, b) _
        (by simp [step, pop, new_int_stack]) ih

/-- C11 (count matches chain, I2/I3): for a capacity `c` with `0 ≤ c` (an `int`), every
finite sequence of `push` and `pop` calls on `new_int_stack c` runs to its end, and after
every call `num_frames` equals the number of frames reachable from `top` by `next` links,
and the link reached after `num_frames` steps from `top` is `NULL`. -/
theorem count_matches_chain (c : Int) (ops : List op) (b : Int) (hc : 0 ≤ c)
    (hmax : c ≤ INT_MAX) :
    ∃ tr, run (new_int_stack c) b ops = some tr ∧ tr.length = ops.length ∧
      ∀ r ∈ tr, (count_frames r.2.1.top : Int) = r.2.1.num_frames ∧
        link_after r.2.1.num_frames.toNat r.2.1.top = some none := by
  obtain ⟨tr, h1, h2, h3⟩ := well_formed_run ops (new_int_stack c) b (well_formed_new c hc hmax)
  refine ⟨tr, h1, h2, fun r hr => ⟨(h3 r hr).2.2.2, ?_⟩⟩
  rw [← (h3 r hr).2.2.2, Int.toNat_ofNat]
  exact link_after_count_frames _

theorem count_matches_chain_witness :
    (0 : Int) ≤ 2 ∧ (2 : Int) ≤ INT_MAX ∧
    ∃ tr, run (new_int_stack 2) 0 [op.pop, op.push 1, op.push 2, op.push 3, op.pop] = some tr ∧
      tr.length = [op.pop, op.push 1, op.push 2, op.push 3, op.pop].length ∧
      ∀ r ∈ tr, (count_frames r.2.1.top : Int) = r.2.1.num_frames ∧
        link_after r.2.1.num_frames.toNat r.2.1.top = some none :=
  ⟨by decide, by decide, count_matches_chain 2 _ 0 (by decide) (by decide)⟩

/-- C12 (capacity is immutable): `new_int_stack c` has `capacity = c`, `num_frames = 0` and
a `NULL` top; on every stack, `push` (accepted or refused) leaves `capacity` as it was, and
`pop` either returns (with success or failure) and leaves `capacity` as it was, or stops at
the read through a `NULL` top of a stack whose counter is not zero, before any write. -/
theorem capacity_immutable (c : Int) (s : int_stack) (v b : Int) :
    new_int_stack c = { top := none, num_frames := 0, capacity := c } ∧
    (push s v).2.capacity = s.capacity ∧
    (match pop s b with
      | some r => r.2.1.capacity = s.capacity
      | none => s.num_frames ≠ 0 ∧ s.top = none) := by
  refine ⟨rfl, push_capacity s v, ?_⟩
  cases hp : pop s b with
  | none => exact pop_fault s b hp
  | some r => exact pop_capacity s b r hp

/-- C13 (a refused push can be retried after a pop): on every full stack reachable from
`new_int_stack c` with `1 ≤ c` (an `int`), `push v` returns -1 and changes nothing; the `pop`
made after it returns 0, and `push v` on the stack it leaves returns 0, makes `v` the data
of the top frame, and brings `num_frames` back to `capacity`. -/
theorem push_retry_after_pop (c : Int) (s : int_stack) (v b : Int) (hc : 1 ≤ c)
    (hmax : c ≤ INT_MAX) (hr : Reachable c s) (hfull : s.num_frames = s.capacity) :
    (push s v).1 = -1 ∧ (push s v).2 = s ∧
    ∃ r, pop (push s v).2 b = some r ∧ r.1 = 0 ∧
      (push r.2.1 v).1 = 0 ∧
      (push r.2.1 v).2.top = some (.mk v r.2.1.top) ∧
      (push r.2.1 v).2.num_frames = (push r.2.1 v).2.capacity := by
  have hw := well_formed_of_reachable c s (by omega) hmax hr
  have hcap := capacity_of_reachable c s hr
  obtain ⟨d, n, ht, _⟩ := top_of_well_formed s hw (by omega)
  obtain ⟨h0, h1, h2, _⟩ := hw
  rw [push_full s v hfull]
  refine ⟨rfl, rfl, _, pop_not_empty s b _ (by omega) ht, rfl, ?_⟩
  rw [wrap32_id _ (by unfold INT_MIN; omega) (by omega)]
  rw [push_not_full _ v (by simp only; omega)]
  refine ⟨rfl, rfl, ?_⟩
  simp only [sub_add_cancel]
  rw [wrap32_id _ (by unfold INT_MIN; omega) (by omega)]
  exact hfull

theorem push_retry_after_pop_witness :
    (1 : Int) ≤ 1 ∧ (1 : Int) ≤ INT_MAX ∧ Reachable 1 (push (new_int_stack 1) 5).2 ∧
    (push (new_int_stack 1) 5).2.num_frames = (push (new_int_stack 1) 5).2.capacity ∧
    (push (push (new_int_stack 1) 5).2 6).1 = -1 ∧
    (push (push (new_int_stack 1) 5).2 6).2 = (push (new_int_stack 1) 5).2 ∧
    ∃ r, pop (push (push (new_int_stack 1) 5).2 6).2 0 = some r ∧ r.1 = 0 ∧
      (push r.2.1 6).1 = 0 ∧
      (push r.2.1 6).2.top = some (.mk 6 r.2.1.top) ∧
      (push r.2.1 6).2.num_frames = (push r.2.1 6).2.capacity :=
  ⟨by decide, by decide, Reachable.push _ 5 Reachable.init, by decide,
    push_retry_after_pop 1 (push (new_int_stack 1) 5).2 6 0 (by decide) (by decide)
      (Reachable.push _ 5 Reachable.init) (by decide)⟩

/-- C14 (counter and chain agree on emptiness): on every stack reachable from
`new_int_stack c` with `0 ≤ c` (an `int`), `top` is `NULL` if and only if `num_frames = 0`;
so when `pop` passes its check `num_frames ≠ 0` the top is a frame, the reads of its `data`
and `next` are defined and `pop` returns 0 with them, and when `pop` reports an empty stack
no frame is linked from `top`. -/
theorem empty_iff_no_frames (c : Int) (s : int_stack) (b : Int) (hc : 0 ≤ c)
    (hmax : c ≤ INT_MAX) (hr : Reachable c s) :
    (s.top = none ↔ s.num_frames = 0) ∧
    (s.num_frames ≠ 0 → ∃ f, s.top = some f ∧
      ∃ n, pop s b = some (0, { top := f.next, num_frames := n, capacity := s.capacity },
                            f.data)) ∧
    (s.num_frames = 0 → pop s b = some (-1, s, b) ∧ count_frames s.top = 0) := by
  have hw := well_formed_of_reachable c s hc hmax hr
  refine ⟨⟨?_, ?_⟩, ?_, ?_⟩
  · intro ht
    have h3 := hw.2.2.2
    rw [ht] at h3
    simpa [count_frames] using h3.symm
  · intro h0
    have h3 := hw.2.2.2
    rw [h0] at h3
    cases hs : s.top with
    | none => rfl
    | some f =>
      cases f with
      | mk d n =>
        rw [hs, count_frames_some] at h3
        simp only [Nat.cast_add, Nat.cast_one] at h3
        omega
  · intro hne
    obtain ⟨d, n, ht, _⟩ := top_of_well_formed s hw hne
    exact ⟨_, ht, _, pop_not_empty s b _ hne ht⟩
  · intro h0
    refine ⟨pop_empty s b h0, ?_⟩
    have h3 := hw.2.2.2
    rw [h0] at h3
    exact_mod_cast h3

theorem empty_iff_no_frames_witness :
    (0 : Int) ≤ 3 ∧ (3 : Int) ≤ INT_MAX ∧ Reachable 3 (push (new_int_stack 3) 5).2 ∧
    (((push (new_int_stack 3) 5).2.top = none ↔ (push (new_int_stack 3) 5).2.num_frames = 0) ∧
    ((push (new_int_stack 3) 5).2.num_frames ≠ 0 → ∃ f, (push (new_int_stack 3) 5).2.top = some f ∧
      ∃ n, pop (push (new_int_stack 3) 5).2 0
        = some (0, { top := f.next, num_frames := n,
                     capacity := (push (new_int_stack 3) 5).2.capacity }, f.data)) ∧
    ((push (new_int_stack 3) 5).2.num_frames = 0 →
      pop (push (new_int_stack 3) 5).2 0 = some (-1, (push (new_int_stack 3) 5).2, 0) ∧
      count_frames (push (new_int_stack 3) 5).2.top = 0)) :=
  ⟨by decide, by decide, Reachable.push _ 5 Reachable.init,
    empty_iff_no_frames 3 (push (new_int_stack 3) 5).2 0 (by decide) (by decide)
      (Reachable.push _ 5 Reachable.init)⟩

/-- C15 (a negative capacity disables the bound): for every capacity `c < 0` and value `v`,
`push` on `new_int_stack c` returns 0 and leaves `num_frames = 1`, above the capacity; and
for every `n` with `0 ≤ n < INT_MAX`, `n` consecutive pushes on `new_int_stack c` all
return 0, so none of them reports that the capacity is reached. -/
theorem negative_capacity (c : Int) (vs : List Int) (v b : Int) (hc : c < 0)
    (hn : (vs.length : Int) < INT_MAX) :
    push (new_int_stack c) v
      = (0, { top := some (.mk v none), num_frames := 1, capacity := c }) ∧
    (push (new_int_stack c) v).2.capacity < (push (new_int_stack c) v).2.num_frames ∧
    ∃ tr, run (new_int_stack c) b (vs.map op.push) = some tr ∧
      tr.length = vs.length ∧ tr.map (fun r => r.1) = List.replicate vs.length 0 := by
  have hp : push (new_int_stack c) v
      = (0, { top := some (.mk v none), num_frames := 1, capacity := c }) := by
    rw [push_not_full _ v (by simp only [new_int_stack]; omega)]
    simp only [new_int_stack, zero_add]
    rw [wrap32_id 1 (by decide) (by decide)]
  obtain ⟨tr, h1, h2, h3, _, _⟩ :=
    run_pushes vs (new_int_stack c) b (by simp [new_int_stack, INT_MIN])
      (by simp only [new_int_stack]; omega) (Or.inr (by simpa [new_int_stack] using hc))
  refine ⟨hp, ?_, tr, h1, h2, h3⟩
  rw [hp]
  simp only
  omega

theorem negative_capacity_witness :
    (-1 : Int) < 0 ∧ ((([1, 2, 3, 4] : List Int).length : Nat) : Int) < INT_MAX ∧
    (push (new_int_stack (-1)) 7
      = (0, { top := some (.mk 7 none), num_frames := 1, capacity := -1 }) ∧
    (push (new_int_stack (-1)) 7).2.capacity < (push (new_int_stack (-1)) 7).2.num_frames ∧
    ∃ tr, run (new_int_stack (-1)) 0 (([1, 2, 3, 4] : List Int).map op.push) = some tr ∧
      tr.length = ([1, 2, 3, 4] : List Int).length ∧
      tr.map (fun r => r.1) = List.replicate ([1, 2, 3, 4] : List Int).length 0) :=
  ⟨by decide, by decide, negative_capacity (-1) [1, 2, 3, 4] 7 0 (by decide) (by decide)⟩

/-- C16 (LIFO on a stack in use, restoring the state): on every stack `s` that satisfies I1
and I2 (with an `int` capacity) and for `k` values `v1 .. vk` with
`num_frames + k ≤ capacity`, the `k` pushes all return 0, the following `k` pops all return 0
and yield `vk, .., v1`, and the stack after the last call is exactly `s`. -/
theorem lifo_restores_stack (s : int_stack) (vs : List Int) (b : Int) (hw : well_formed s)
    (hk : s.num_frames + vs.length ≤ s.capacity) :
    ∃ tr1 tr2,
      run s b (vs.map op.push ++ List.replicate vs.length op.pop) = some (tr1 ++ tr2) ∧
      tr1.map (fun r => r.1) = List.replicate vs.length 0 ∧
      tr2.map (fun r => (r.1, r.2.2)) = vs.reverse.map (fun v => (0, v)) ∧
      last_stack s (tr1 ++ tr2) = s := by
  obtain ⟨h0, _, h2, _⟩ := hw
  obtain ⟨tr1, h1, _, h3, h4, _⟩ :=
    run_pushes vs s b (by unfold INT_MIN; omega) (by omega) (Or.inl hk)
  obtain ⟨tr2, g1, g2, g3⟩ :=
    run_pops vs.reverse (last_stack s tr1) (last_buf b tr1) s.top (by rw [h4])
      (by rw [h4]; simp only [List.length_reverse]; omega) (by rw [h4]; simp only; omega)
  rw [List.length_reverse] at g1 g3
  refine ⟨tr1, tr2, run_append _ _ _ _ _ _ h1 g1, h3, g2, ?_⟩
  rw [last_stack_append, g3, h4]
  simp only [add_sub_cancel_right]

theorem lifo_restores_stack_witness :
    well_formed ⟨frames_of [5] none, 1, 3⟩ ∧
    (⟨frames_of [5] none, 1, 3⟩ : int_stack).num_frames + (([6, 7] : List Int).length : Nat)
      ≤ (⟨frames_of [5] none, 1, 3⟩ : int_stack).capacity ∧
    ∃ tr1 tr2,
      run ⟨frames_of [5] none, 1, 3⟩ 0
          (([6, 7] : List Int).map op.push ++ List.replicate ([6, 7] : List Int).length op.pop)
        = some (tr1 ++ tr2) ∧
      tr1.map (fun r => r.1) = List.replicate ([6, 7] : List Int).length 0 ∧
      tr2.map (fun r => (r.1, r.2.2)) = ([6, 7] : List Int).reverse.map (fun v => (0, v)) ∧
      last_stack ⟨frames_of [5] none, 1, 3⟩ (tr1 ++ tr2) = ⟨frames_of [5] none, 1, 3⟩ :=
  ⟨by decide, by decide,
    lifo_restores_stack ⟨frames_of [5] none, 1, 3⟩ [6, 7] 0 (by decide) (by decide)⟩

/-- C17 (pop then push is the identity): on every stack `s` that satisfies I1 and I2 (with
an `int` capacity) and has `num_frames > 0`, `pop` returns 0 with a value `v` in the output
buffer, and `push v` on the stack it leaves returns 0 and produces exactly `s`: the same
chain of frames, the same `num_frames`, the same `capacity`. -/
theorem pop_push_identity (s : int_stack) (b : Int) (hw : well_formed s)
    (hpos : 0 < s.num_frames) :
    ∃ r, pop s b = some r ∧ r.1 = 0 ∧ push r.2.1 r.2.2 = (0, s) := by
  obtain ⟨d, n, ht, _⟩ := top_of_well_formed s hw (by omega)
  obtain ⟨_, h1, h2, _⟩ := hw
  refine ⟨_, pop_not_empty s b _ (by omega) ht, rfl, ?_⟩
  rw [wrap32_id _ (by unfold INT_MIN; omega) (by omega)]
  rw [push_not_full _ _ (by simp only; omega)]
  simp only [int_stack_frame.next, int_stack_frame.data, sub_add_cancel]
  rw [wrap32_id _ (by unfold INT_MIN; omega) (by omega), ← ht]

theorem pop_push_identity_witness :
    well_formed ⟨frames_of [7, 6, 5] none, 3, 3⟩ ∧
    0 < (⟨frames_of [7, 6, 5] none, 3, 3⟩ : int_stack).num_frames ∧
    ∃ r, pop ⟨frames_of [7, 6, 5] none, 3, 3⟩ 0 = some r ∧ r.1 = 0 ∧
      push r.2.1 r.2.2 = (0, ⟨frames_of [7, 6, 5] none, 3, 3⟩) :=
  ⟨by decide, by decide,
    pop_push_identity ⟨frames_of [7, 6, 5] none, 3, 3⟩ 0 (by decide) (by decide)⟩

/-- C18 (no counter overflow): on every stack reachable from `new_int_stack c` with
`0 ≤ c ≤ INT_MAX`, an accepted `push` increments a counter with `num_frames + 1 ≤ INT_MAX`
and a successful `pop` decrements a counter with `num_frames - 1 ≥ 0`, so the 32-bit results
that the calls store are the results over the unbounded integers. -/
theorem no_counter_overflow (c : Int) (s : int_stack) (v b : Int) (hc : 0 ≤ c)
    (hmax : c ≤ INT_MAX) (hr : Reachable c s) :
    (s.num_frames ≠ s.capacity →
      (push s v).1 = 0 ∧ s.num_frames + 1 ≤ INT_MAX ∧
      wrap32 (s.num_frames + 1) = s.num_frames + 1 ∧
      (push s v).2.num_frames = s.num_frames + 1) ∧
    (s.num_frames ≠ 0 →
      0 ≤ s.num_frames - 1 ∧ wrap32 (s.num_frames - 1) = s.num_frames - 1 ∧
      ∃ r, pop s b = some r ∧ r.1 = 0 ∧ r.2.1.num_frames = s.num_frames - 1) := by
  have hw := well_formed_of_reachable c s hc hmax hr
  refine ⟨fun hne => ?_, fun hne => ?_⟩
  · obtain ⟨h0, h1, h2, _⟩ := hw
    have hwrap := wrap32_id (s.num_frames + 1) (by unfold INT_MIN; omega) (by omega)
    rw [push_not_full s v hne]
    exact ⟨rfl, by omega, hwrap, hwrap⟩
  · obtain ⟨d, n, ht, _⟩ := top_of_well_formed s hw hne
    obtain ⟨h0, h1, h2, _⟩ := hw
    have hwrap := wrap32_id (s.num_frames - 1) (by unfold INT_MIN; omega) (by omega)
    exact ⟨by omega, hwrap, _, pop_not_empty s b _ hne ht, rfl, hwrap⟩

theorem no_counter_overflow_witness :
    (0 : Int) ≤ 1 ∧ (1 : Int) ≤ INT_MAX ∧ Reachable 1 (push (new_int_stack 1) 5).2 ∧
    (((push (new_int_stack 1) 5).2.num_frames ≠ (push (new_int_stack 1) 5).2.capacity →
      (push (push (new_int_stack 1) 5).2 6).1 = 0 ∧
      (push (new_int_stack 1) 5).2.num_frames + 1 ≤ INT_MAX ∧
      wrap32 ((push (new_int_stack 1) 5).2.num_frames + 1)
        = (push (new_int_stack 1) 5).2.num_frames + 1 ∧
      (push (push (new_int_stack 1) 5).2 6).2.num_frames
        = (push (new_int_stack 1) 5).2.num_frames + 1) ∧
    ((push (new_int_stack 1) 5).2.num_frames ≠ 0 →
      0 ≤ (push (new_int_stack 1) 5).2.num_frames - 1 ∧
      wrap32 ((push (new_int_stack 1) 5).2.num_frames - 1)
        = (push (new_int_stack 1) 5).2.num_frames - 1 ∧
      ∃ r, pop (push (new_int_stack 1) 5).2 0 = some r ∧ r.1 = 0 ∧
        r.2.1.num_frames = (push (new_int_stack 1) 5).2.num_frames - 1)) :=
  ⟨by decide, by decide, Reachable.push _ 5 Reachable.init,
    no_counter_overflow 1 (push (new_int_stack 1) 5).2 6 0 (by decide) (by decide)
      (Reachable.push _ 5 Reachable.init)⟩

end CExample
